import Mathlib

/-!
Verification of the anonymizer pipeline core: span tokenization, chunk
planning, reassembly merging, divergence validation, the retry-wrapped
transform client, the chunk processing orchestrator, entity replacement and
the deterministic pre-masking placeholders. Text is modelled as List Char;
the Python floats used for the safety factor and backoff are modelled as
exact rationals; fallible code returns Except.
-/

namespace Anonimizador

/-- Model of the whitespace class used by the Python regexes and str.strip
for the character set this program handles. -/
def isWS (c : Char) : Bool :=
  c = ' ' || c = '\t' || c = '\n' || c = '\r' || c = '\x0b' || c = '\x0c'

/-- TokenSpan from the source: a token (or whitespace run) with its exact
character offsets. -/
structure TokenSpan where
  token : List Char
  start : Nat
  stop : Nat
  deriving Repr, DecidableEq, Inhabited

theorem length_dropWhile_le (p : Char → Bool) (l : List Char) :
    (l.dropWhile p).length ≤ l.length := by
  induction l with
  | nil => simp [List.dropWhile]
  | cons c cs ih =>
    by_cases h : p c
    · simp [List.dropWhile, h]
      omega
    · simp [List.dropWhile, h]

/-- Loop of tokenize_with_spans: the regex match of a maximal non-whitespace
run plus its trailing whitespace; whitespace not attached to a preceding
match becomes its own span (the leading-gap branch and the final tail branch
of the source). -/
def tokenize_go (cursor : Nat) : List Char → List TokenSpan
  | [] => []
  | c :: cs =>
    if isWS c then
      let ws := c :: cs.takeWhile isWS
      let rest := cs.dropWhile isWS
      match rest with
      | [] => [⟨ws, cursor, cursor + ws.length⟩]
      | _ :: _ =>
        ⟨ws, cursor, cursor + ws.length⟩ :: tokenize_go (cursor + ws.length) rest
    else
      let nws := c :: cs.takeWhile (fun d => !isWS d)
      let rest2 := cs.dropWhile (fun d => !isWS d)
      let ws2 := rest2.takeWhile isWS
      let rest3 := rest2.dropWhile isWS
      let tok := nws ++ ws2
      ⟨tok, cursor, cursor + tok.length⟩ :: tokenize_go (cursor + tok.length) rest3
  termination_by s => s.length
  decreasing_by
  · simp only [List.length_cons]
    exact Nat.lt_succ_of_le (length_dropWhile_le _ _)
  · simp only [List.length_cons]
    exact Nat.lt_succ_of_le (le_trans (length_dropWhile_le _ _) (length_dropWhile_le _ _))

/-- tokenize_with_spans from the source. -/
def tokenize_with_spans (text : List Char) : List TokenSpan :=
  tokenize_go 0 text

/-- Contiguity predicate: starting at a given offset, each span starts where
the previous one stopped, covers exactly its token's characters, and is
non-empty. -/
def chainFrom (pos : Nat) : List TokenSpan → Prop
  | [] => True
  | s :: rest =>
    s.start = pos ∧ s.stop = pos + s.token.length ∧ s.token ≠ [] ∧
      chainFrom s.stop rest

theorem tokenize_go_spec : ∀ (cursor : Nat) (s : List Char),
    ((tokenize_go cursor s).map TokenSpan.token).flatten = s ∧
      chainFrom cursor (tokenize_go cursor s) := by
  intro cursor0 s0
  induction cursor0, s0 using tokenize_go.induct with
  | case1 cursor => simp [tokenize_go, chainFrom]
  | case2 cursor c cs hws rest hrest =>
    have hr : List.dropWhile isWS cs = [] := hrest
    have htw : List.takeWhile isWS cs = cs := by
      have h := List.takeWhile_append_dropWhile (p := isWS) (l := cs)
      rw [hr, List.append_nil] at h
      exact h
    simp [tokenize_go, hws, hr, htw, chainFrom]
  | case3 cursor c cs hws ws rest d ds hrest ih =>
    have hr : List.dropWhile isWS cs = d :: ds := hrest
    have hwseq : ws = c :: List.takeWhile isWS cs := rfl
    have hreq : rest = List.dropWhile isWS cs := rfl
    rw [hwseq, hreq, hr] at ih
    obtain ⟨ihj, ihc⟩ := ih
    rw [tokenize_go]
    simp only [hws, if_pos, hr]
    constructor
    · simp only [List.map_cons, List.flatten_cons, List.length_cons]
      simp only [List.length_cons] at ihj
      rw [ihj]
      have h := List.takeWhile_append_dropWhile (p := isWS) (l := cs)
      rw [hr] at h
      simp only [List.cons_append]
      rw [h]
    · refine ⟨rfl, rfl, List.cons_ne_nil _ _, ?_⟩
      exact ihc
  | case4 cursor c cs hws nws rest2 ws2 rest3 tok ih =>
    have hnws : nws = c :: List.takeWhile (fun d => !isWS d) cs := rfl
    have hrest2 : rest2 = List.dropWhile (fun d => !isWS d) cs := rfl
    have hws2 : ws2 = List.takeWhile isWS rest2 := rfl
    have hrest3 : rest3 = List.dropWhile isWS rest2 := rfl
    have htok : tok = nws ++ ws2 := rfl
    rw [htok, hnws, hws2, hrest3, hrest2] at ih
    obtain ⟨ihj, ihc⟩ := ih
    rw [tokenize_go, if_neg hws]
    constructor
    · simp only [List.map_cons, List.flatten_cons]
      rw [ihj]
      have h1 := List.takeWhile_append_dropWhile (p := fun d => !isWS d) (l := cs)
      have h2 := List.takeWhile_append_dropWhile (p := isWS)
        (l := cs.dropWhile (fun d => !isWS d))
      simp only [List.cons_append, List.append_assoc]
      rw [h2, h1]
    · refine ⟨rfl, rfl, List.cons_ne_nil _ _, ?_⟩
      exact ihc

/-- From a contiguous chain, the last span stops at the starting offset plus
the total joined length. -/
theorem chainFrom_getLast (spans : List TokenSpan) :
    ∀ pos, chainFrom pos spans → spans ≠ [] →
      (spans.getLastD default).stop =
        pos + ((spans.map TokenSpan.token).flatten).length := by
  induction spans with
  | nil => intro pos _ h; exact absurd rfl h
  | cons s rest ih =>
    intro pos hc _
    obtain ⟨hstart, hstop, _, hrest⟩ := hc
    cases rest with
    | nil => simp [List.getLastD, hstop]
    | cons t ts =>
      have := ih s.stop hrest (by simp)
      simp only [List.getLastD_cons] at *
      rw [this, hstop]
      simp only [List.map_cons, List.flatten_cons, List.length_append]
      omega

theorem tokenize_with_spans_ne_nil (text : List Char) (h : text ≠ []) :
    tokenize_with_spans text ≠ [] := by
  intro hnil
  obtain ⟨hj, _⟩ := tokenize_go_spec 0 text
  rw [tokenize_with_spans] at hnil
  rw [hnil] at hj
  simp at hj
  exact h hj

/-- C2: for every input — including the empty string, pure whitespace and
no-whitespace input — concatenating the tokenizer's span texts in order
reproduces the input exactly, and the spans are contiguous and gap-free:
each span's end equals the next span's start, the first starts at 0 and the
last ends at the input length. -/
theorem claim_C2_tokenizer_roundtrip (text : List Char) :
    ((tokenize_with_spans text).map TokenSpan.token).flatten = text ∧
      chainFrom 0 (tokenize_with_spans text) ∧
      ((tokenize_with_spans text).headD default).start = 0 ∧
      ((tokenize_with_spans text).getLastD default).stop = text.length := by
  obtain ⟨hj, hc⟩ := tokenize_go_spec 0 text
  refine ⟨hj, hc, ?_, ?_⟩
  · cases h : tokenize_with_spans text with
    | nil => rfl
    | cons s rest =>
      have h2 : tokenize_go 0 text = s :: rest := h
      rw [h2] at hc
      obtain ⟨hs, _⟩ := hc
      simpa using hs
  · by_cases h : tokenize_with_spans text = []
    · have htext : text = [] := by
        rw [tokenize_with_spans] at h
        rw [h] at hj
        simpa using hj.symm
      rw [h, htext]
      rfl
    · have hlast := chainFrom_getLast (tokenize_with_spans text) 0 hc h
      rw [hlast]
      have hj2 : ((tokenize_with_spans text).map TokenSpan.token).flatten = text := hj
      rw [hj2]
      omega

/-- Chunk from the source: an ordinal, the back-filled total, the chunk text
and its character and token ranges. -/
structure Chunk where
  index : Nat
  total : Nat
  text : List Char
  char_start : Nat
  char_end : Nat
  token_start : Nat
  token_end : Nat
  deriving Repr, DecidableEq, Inhabited

/-- Chunk construction inside the while-loop of build_chunks: the character
range is derived from the first and last span of the token window; the total
is back-filled later. -/
def mkChunk (spans : List TokenSpan) (text : List Char)
    (chunk_index token_start token_end : Nat) : Chunk :=
  let window := (spans.drop token_start).take (token_end - token_start)
  let char_start := (window.headD default).start
  let char_end := (window.getLastD default).stop
  ⟨chunk_index, 0, (text.drop char_start).take (char_end - char_start),
    char_start, char_end, token_start, token_end⟩

/-- While-loop of build_chunks: cut windows of at most eff1 + 1 token spans
and advance the window start to the cut point. The capacity is passed as
eff1 + 1 so that its positivity (guaranteed by the caller's clamp to a
minimum of 1) is structural. -/
def buildLoop (spans : List TokenSpan) (text : List Char) (total eff1 : Nat)
    (token_start chunk_index : Nat) : List Chunk :=
  if h : token_start < total then
    mkChunk spans text chunk_index token_start (min (token_start + (eff1 + 1)) total) ::
      buildLoop spans text total eff1 (min (token_start + (eff1 + 1)) total)
        (chunk_index + 1)
  else []
  termination_by total - token_start
  decreasing_by omega

/-- Gap check loop of validate_chunk_sequence. -/
def checkNoGap (previous_end : Nat) : List Chunk → Except String Unit
  | [] => Except.ok ()
  | c :: rest =>
    if c.token_start > previous_end then
      Except.error "Se detecto un hueco entre chunks."
    else checkNoGap (max previous_end c.token_end) rest

/-- validate_chunk_sequence from the source: raises on empty output, a first
chunk not starting at token 0, a last chunk not ending at the total token
count, or a gap past the running coverage frontier. -/
def validate_chunk_sequence (chunks : List Chunk) (total_tokens : Nat) :
    Except String Unit :=
  if chunks.isEmpty then
    Except.error "No se generaron chunks para el documento."
  else if (chunks.headD default).token_start ≠ 0 then
    Except.error "El primer chunk no comienza en el inicio del documento."
  else if (chunks.getLastD default).token_end ≠ total_tokens then
    Except.error "El ultimo chunk no cubre hasta el final del documento."
  else checkNoGap 0 chunks

/-- build_chunks from the source. The effective capacity is clamped to a
minimum of 1 before the positivity check (so that check can never fire); a
positive overlap budget raises; the produced sequence gets its total
back-filled and is validated. -/
def build_chunks (text : List Char) (max_tokens : Int) (overlap_tokens : Int)
    (safety_factor : ℚ) : Except String (List Chunk) :=
  let token_spans := tokenize_with_spans text
  let total_tokens := token_spans.length
  let effective_chunk_tokens : Int := max 1 ⌊(max_tokens : ℚ) * safety_factor⌋
  if overlap_tokens > 0 then
    Except.error "El solapamiento entre chunks no esta soportado actualmente."
  else if effective_chunk_tokens ≤ 0 then
    Except.error "max_context_tokens ajustado debe ser mayor que cero."
  else
    let raw := buildLoop token_spans text total_tokens
      (effective_chunk_tokens.toNat - 1) 0 1
    let chunks := raw.map (fun c : Chunk => ({ c with total := raw.length } : Chunk))
    match validate_chunk_sequence chunks total_tokens with
    | Except.error e => Except.error e
    | Except.ok _ => Except.ok chunks

/-- Chain predicate on a chunk sequence: each chunk starts exactly at the
given position, ends strictly later, and the next chunk continues there. -/
def chunkLinks (pos : Nat) : List Chunk → Prop
  | [] => True
  | c :: rest => c.token_start = pos ∧ pos < c.token_end ∧ chunkLinks c.token_end rest

/-- Coverage-frontier predicate mirroring the gap check: no chunk starts
past the maximum token_end of the chunks before it. -/
def frontierOK (prev : Nat) : List Chunk → Prop
  | [] => True
  | c :: rest => c.token_start ≤ prev ∧ frontierOK (max prev c.token_end) rest

theorem mkChunk_token_start (spans : List TokenSpan) (text : List Char)
    (ci ts te : Nat) : (mkChunk spans text ci ts te).token_start = ts := rfl

theorem mkChunk_token_end (spans : List TokenSpan) (text : List Char)
    (ci ts te : Nat) : (mkChunk spans text ci ts te).token_end = te := rfl

theorem buildLoop_links (spans : List TokenSpan) (text : List Char)
    (total eff1 : Nat) :
    ∀ token_start chunk_index,
      chunkLinks token_start (buildLoop spans text total eff1 token_start chunk_index) := by
  intro ts0 ci0
  induction ts0, ci0 using buildLoop.induct spans text total eff1 with
  | case1 ts ci h ih =>
    rw [buildLoop, dif_pos h]
    exact ⟨mkChunk_token_start _ _ _ _ _, by rw [mkChunk_token_end]; omega,
      by rw [mkChunk_token_end]; exact ih⟩
  | case2 ts ci h =>
    rw [buildLoop, dif_neg h]
    trivial

theorem buildLoop_ne_nil (spans : List TokenSpan) (text : List Char)
    (total eff1 : Nat) (token_start chunk_index : Nat)
    (h : token_start < total) :
    buildLoop spans text total eff1 token_start chunk_index ≠ [] := by
  rw [buildLoop, dif_pos h]
  exact List.cons_ne_nil _ _

theorem buildLoop_last (spans : List TokenSpan) (text : List Char)
    (total eff1 : Nat) :
    ∀ token_start chunk_index, token_start < total →
      ((buildLoop spans text total eff1 token_start chunk_index).getLastD
          default).token_end = total := by
  intro ts0 ci0
  induction ts0, ci0 using buildLoop.induct spans text total eff1 with
  | case1 ts ci h ih =>
    intro _
    rw [buildLoop, dif_pos h]
    by_cases hend : min (ts + (eff1 + 1)) total < total
    · have hne := buildLoop_ne_nil spans text total eff1
        (min (ts + (eff1 + 1)) total) (ci + 1) hend
      cases hb : buildLoop spans text total eff1 (min (ts + (eff1 + 1)) total) (ci + 1) with
      | nil => exact absurd hb hne
      | cons d ds =>
        have := ih hend
        rw [hb] at this
        simpa using this
    · have hb : buildLoop spans text total eff1 (min (ts + (eff1 + 1)) total) (ci + 1) = [] := by
        rw [buildLoop, dif_neg (by omega)]
      rw [hb]
      have hsingle : (([mkChunk spans text ci ts (min (ts + (eff1 + 1)) total)] :
          List Chunk).getLastD default).token_end = min (ts + (eff1 + 1)) total := by
        simp [mkChunk_token_end]
      rw [hsingle]
      omega
  | case2 ts ci h =>
    intro hlt
    exact absurd hlt h

theorem chunkLinks_map_total (n : Nat) :
    ∀ (cs : List Chunk) (pos : Nat), chunkLinks pos cs →
      chunkLinks pos (cs.map (fun c : Chunk => ({ c with total := n } : Chunk))) := by
  intro cs
  induction cs with
  | nil => intro pos _; trivial
  | cons c rest ih =>
    intro pos hl
    obtain ⟨h1, h2, h3⟩ := hl
    exact ⟨h1, h2, ih _ h3⟩

theorem getLastD_map_total (n : Nat) (cs : List Chunk) (h : cs ≠ []) :
    ((cs.map (fun c : Chunk => ({ c with total := n } : Chunk))).getLastD
        default).token_end = (cs.getLastD default).token_end := by
  induction cs with
  | nil => exact absurd rfl h
  | cons c rest ih =>
    cases rest with
    | nil => rfl
    | cons d ds =>
      have := ih (by simp)
      simpa using this

theorem checkNoGap_ok_of_links :
    ∀ (cs : List Chunk) (pos prev : Nat), chunkLinks pos cs → pos ≤ prev →
      checkNoGap prev cs = Except.ok () := by
  intro cs
  induction cs with
  | nil => intro pos prev _ _; rfl
  | cons c rest ih =>
    intro pos prev hl hle
    obtain ⟨h1, h2, h3⟩ := hl
    rw [checkNoGap, if_neg (by omega)]
    exact ih c.token_end (max prev c.token_end) h3 (by omega)

theorem frontierOK_of_links :
    ∀ (cs : List Chunk) (pos prev : Nat), chunkLinks pos cs → pos ≤ prev →
      frontierOK prev cs := by
  intro cs
  induction cs with
  | nil => intro pos prev _ _; trivial
  | cons c rest ih =>
    intro pos prev hl hle
    obtain ⟨h1, h2, h3⟩ := hl
    exact ⟨by omega, ih c.token_end (max prev c.token_end) h3 (by omega)⟩

theorem frontierOK_of_checkNoGap :
    ∀ (cs : List Chunk) (prev : Nat), checkNoGap prev cs = Except.ok () →
      frontierOK prev cs := by
  intro cs
  induction cs with
  | nil => intro prev _; trivial
  | cons c rest ih =>
    intro prev h
    rw [checkNoGap] at h
    by_cases hgt : c.token_start > prev
    · rw [if_pos hgt] at h
      exact absurd h (by simp)
    · rw [if_neg hgt] at h
      exact ⟨by omega, ih _ h⟩

/-- If validate_chunk_sequence accepts, the post-conditions hold. -/
theorem validate_ok_implies (cs : List Chunk) (total : Nat)
    (h : validate_chunk_sequence cs total = Except.ok ()) :
    cs ≠ [] ∧ (cs.headD default).token_start = 0 ∧
      (cs.getLastD default).token_end = total ∧ frontierOK 0 cs := by
  rw [validate_chunk_sequence] at h
  by_cases h1 : cs.isEmpty
  · rw [if_pos h1] at h
    exact absurd h (by simp)
  · rw [if_neg h1] at h
    by_cases h2 : (cs.headD default).token_start ≠ 0
    · rw [if_pos h2] at h
      exact absurd h (by simp)
    · rw [if_neg h2] at h
      by_cases h3 : (cs.getLastD default).token_end ≠ total
      · rw [if_pos h3] at h
        exact absurd h (by simp)
      · rw [if_neg h3] at h
        refine ⟨by simpa using h1, by omega, by omega, frontierOK_of_checkNoGap cs 0 h⟩

/-- For zero (or negative) overlap and non-empty input, build_chunks
succeeds and its output is a gap-free cover of all token spans. -/
theorem build_chunks_ok (text : List Char) (max_tokens : Int)
    (overlap_tokens : Int) (safety_factor : ℚ) (hov : overlap_tokens ≤ 0)
    (htext : text ≠ []) :
    ∃ chunks, build_chunks text max_tokens overlap_tokens safety_factor =
        Except.ok chunks ∧
      chunks ≠ [] ∧ chunkLinks 0 chunks ∧
      (chunks.getLastD default).token_end = (tokenize_with_spans text).length := by
  have htot : 0 < (tokenize_with_spans text).length :=
    List.length_pos.mpr (tokenize_with_spans_ne_nil text htext)
  rw [build_chunks]
  rw [if_neg (by omega)]
  rw [if_neg (by omega)]
  set spans := tokenize_with_spans text with hspans
  set total := spans.length with htotal
  set eff1 := (max 1 ⌊(max_tokens : ℚ) * safety_factor⌋).toNat - 1 with heffdef
  set raw := buildLoop spans text total eff1 0 1 with hraw
  have hne : raw ≠ [] := buildLoop_ne_nil spans text total eff1 0 1 htot
  have hlinks : chunkLinks 0 raw := buildLoop_links spans text total eff1 0 1
  have hlast : (raw.getLastD default).token_end = total :=
    buildLoop_last spans text total eff1 0 1 htot
  set chunks := raw.map (fun c : Chunk => ({ c with total := raw.length } : Chunk))
    with hchunks
  have hne2 : chunks ≠ [] := by
    rw [hchunks]
    simpa using hne
  have hlinks2 : chunkLinks 0 chunks := chunkLinks_map_total _ raw 0 hlinks
  have hlast2 : (chunks.getLastD default).token_end = total := by
    rw [hchunks, getLastD_map_total _ raw hne, hlast]
  have hhead : (chunks.headD default).token_start = 0 := by
    cases hc : chunks with
    | nil => exact absurd hc hne2
    | cons c rest =>
      rw [hc] at hlinks2
      obtain ⟨hcs, _⟩ := hlinks2
      simpa using hcs
  have hval : validate_chunk_sequence chunks total = Except.ok () := by
    rw [validate_chunk_sequence]
    rw [if_neg (by simpa using hne2)]
    rw [if_neg (by omega)]
    rw [if_neg (by omega)]
    exact checkNoGap_ok_of_links chunks 0 0 hlinks2 (le_refl 0)
  refine ⟨chunks, ?_, hne2, hlinks2, hlast2⟩
  show (match validate_chunk_sequence chunks total with
    | Except.error e => Except.error e
    | Except.ok _ => Except.ok chunks) = Except.ok chunks
  rw [hval]

/-- C1: for every text, max_tokens at least 1 and safety factor in (0, 1],
the planner's output has first token_start 0, last token_end equal to the
total token count, no gap past the coverage frontier, and is non-empty for
non-empty input; and validate_chunk_sequence accepts a sequence only when
those post-conditions hold, raising an error on any violation. -/
theorem claim_C1_chunk_planner_coverage (text : List Char) (max_tokens : Int)
    (safety_factor : ℚ) (hmt : 1 ≤ max_tokens) (hsf0 : 0 < safety_factor)
    (hsf1 : safety_factor ≤ 1) (htext : text ≠ []) :
    (∃ chunks, build_chunks text max_tokens 0 safety_factor = Except.ok chunks ∧
      chunks ≠ [] ∧ (chunks.headD default).token_start = 0 ∧
      (chunks.getLastD default).token_end = (tokenize_with_spans text).length ∧
      frontierOK 0 chunks) ∧
    (∀ (cs : List Chunk) (total : Nat),
      validate_chunk_sequence cs total = Except.ok () →
        cs ≠ [] ∧ (cs.headD default).token_start = 0 ∧
          (cs.getLastD default).token_end = total ∧ frontierOK 0 cs) := by
  constructor
  · obtain ⟨chunks, hok, hne, hlinks, hlast⟩ :=
      build_chunks_ok text max_tokens 0 safety_factor (le_refl 0) htext
    refine ⟨chunks, hok, hne, ?_, hlast, frontierOK_of_links chunks 0 0 hlinks (le_refl 0)⟩
    cases hc : chunks with
    | nil => exact absurd hc hne
    | cons c rest =>
      rw [hc] at hlinks
      obtain ⟨hcs, _⟩ := hlinks
      simpa using hcs
  · exact fun cs total h => validate_ok_implies cs total h

theorem claim_C1_chunk_planner_coverage_witness :
    ((1 : Int) ≤ 3 ∧ (0 : ℚ) < 3 / 4 ∧ (3 / 4 : ℚ) ≤ 1 ∧
      ("hola que tal".toList ≠ [])) ∧
    (∃ chunks, build_chunks "hola que tal".toList 3 0 (3 / 4) = Except.ok chunks ∧
      chunks ≠ [] ∧ (chunks.headD default).token_start = 0 ∧
      (chunks.getLastD default).token_end =
        (tokenize_with_spans "hola que tal".toList).length ∧
      frontierOK 0 chunks) :=
  ⟨⟨by norm_num, by norm_num, by norm_num, by decide⟩,
    (claim_C1_chunk_planner_coverage "hola que tal".toList 3 (3 / 4)
      (by norm_num) (by norm_num) (by norm_num) (by decide)).1⟩


/-- Discriminator for Except results. -/
def isOkE {ε α : Type} : Except ε α → Bool
  | Except.ok _ => true
  | Except.error _ => false

/-- C6 counterexample: with max_tokens = 10 and safety_factor = 1/100 the
floored capacity is 0, yet build_chunks does not signal a configuration
error: the capacity was already clamped to a minimum of 1 before the
positivity check, so that check can never fire. -/
theorem claim_C6_counterexample :
    ⌊((10 : Int) : ℚ) * (1 / 100 : ℚ)⌋ ≤ 0 ∧
      isOkE (build_chunks "ab".toList 10 0 (1 / 100)) = true := by
  constructor
  · norm_num
  · obtain ⟨chunks, hok, _, _, _⟩ :=
      build_chunks_ok "ab".toList 10 0 (1 / 100) (by norm_num) (by decide)
    rw [hok]
    rfl

/-- C6 amended: build_chunks signals a configuration error exactly when the
overlap budget is positive; a capacity flooring to ≤ 0 is clamped to 1 and
never an error, so for non-empty input and non-positive overlap the planner
succeeds regardless of the capacity's sign. -/
theorem claim_C6_amended_config_error (text : List Char) (max_tokens : Int)
    (overlap_tokens : Int) (safety_factor : ℚ) :
    (0 < overlap_tokens →
      build_chunks text max_tokens overlap_tokens safety_factor =
        Except.error "El solapamiento entre chunks no esta soportado actualmente.") ∧
    (overlap_tokens ≤ 0 → text ≠ [] →
      isOkE (build_chunks text max_tokens overlap_tokens safety_factor) = true) := by
  constructor
  · intro h
    rw [build_chunks]
    simp only [if_pos h]
  · intro hov htext
    obtain ⟨chunks, hok, _, _, _⟩ :=
      build_chunks_ok text max_tokens overlap_tokens safety_factor hov htext
    rw [hok]
    rfl

theorem claim_C6_amended_config_error_witness :
    ((0 : Int) < 1 ∧
      build_chunks "ab".toList 10 1 (1 / 2) =
        Except.error "El solapamiento entre chunks no esta soportado actualmente.") ∧
    ((0 : Int) ≤ 0 ∧ "ab".toList ≠ [] ∧
      isOkE (build_chunks "ab".toList 10 0 (1 / 2)) = true) :=
  ⟨⟨by norm_num,
      (claim_C6_amended_config_error "ab".toList 10 1 (1 / 2)).1 (by norm_num)⟩,
    ⟨by norm_num, by decide,
      (claim_C6_amended_config_error "ab".toList 10 0 (1 / 2)).2 (by norm_num) (by decide)⟩⟩


/-- Overlap test from merge_chunks: the ranges intersect unless one ends
before the other starts. -/
def rangesOverlap (start stop : Nat) (r : Nat × Nat) : Bool :=
  decide (¬ (stop ≤ r.1 ∨ start ≥ r.2))

/-- Loop of merge_chunks: iterate chunk/processed pairs in order, skip a
chunk whose character range overlaps an already covered range, otherwise
record its range and contribute the processed text, or the original chunk
text when the processed text is empty. -/
def mergeLoop : List (Chunk × List Char) → List (Nat × Nat) → List (List Char)
  | [], _ => []
  | (chunk, processed) :: rest, covered =>
    if covered.any (rangesOverlap chunk.char_start chunk.char_end) then
      mergeLoop rest covered
    else
      (if processed.isEmpty then chunk.text else processed) ::
        mergeLoop rest (covered ++ [(chunk.char_start, chunk.char_end)])

/-- merge_chunks from the source. -/
def merge_chunks (chunks : List Chunk) (processed_chunks : List (List Char)) :
    List Char :=
  if chunks.isEmpty || processed_chunks.isEmpty then []
  else (mergeLoop (chunks.zip processed_chunks) []).flatten

/-- Selection loop mirroring mergeLoop: the chunk/processed pairs that are
actually included, in order. -/
def includedPairs : List (Chunk × List Char) → List (Nat × Nat) → List (Chunk × List Char)
  | [], _ => []
  | (chunk, processed) :: rest, covered =>
    if covered.any (rangesOverlap chunk.char_start chunk.char_end) then
      includedPairs rest covered
    else
      (chunk, processed) ::
        includedPairs rest (covered ++ [(chunk.char_start, chunk.char_end)])

theorem mergeLoop_eq_map_included :
    ∀ (pairs : List (Chunk × List Char)) (covered : List (Nat × Nat)),
      mergeLoop pairs covered =
        (includedPairs pairs covered).map
          (fun cp => if cp.2.isEmpty then cp.1.text else cp.2) := by
  intro pairs
  induction pairs with
  | nil => intro covered; rfl
  | cons cp rest ih =>
    intro covered
    obtain ⟨chunk, processed⟩ := cp
    rw [mergeLoop, includedPairs]
    by_cases h : covered.any (rangesOverlap chunk.char_start chunk.char_end) = true
    · rw [if_pos h, if_pos h]
      exact ih covered
    · rw [if_neg h, if_neg h]
      simp only [List.map_cons]
      rw [ih]

/-- C3: merge_chunks iterates chunks in order and skips any chunk whose
range overlaps a previously covered range, so a duplicated character range
contributes exactly once; every included chunk contributes its processed
text when non-empty and its original text otherwise; and the result is
empty when there are no chunks or no processed results. -/
theorem claim_C3_merger_overlap_skip_and_fallback
    (chunks : List Chunk) (processed : List (List Char))
    (c1 c2 : Chunk) (p1 p2 : List Char)
    (hs : c1.char_start = c2.char_start) (he : c1.char_end = c2.char_end)
    (hlt : c1.char_start < c1.char_end) :
    merge_chunks [] processed = [] ∧
    merge_chunks chunks [] = [] ∧
    merge_chunks chunks processed =
      (if chunks.isEmpty || processed.isEmpty then []
       else ((includedPairs (chunks.zip processed) []).map
          (fun cp => if cp.2.isEmpty then cp.1.text else cp.2)).flatten) ∧
    merge_chunks [c1, c2] [p1, p2] = (if p1.isEmpty then c1.text else p1) := by
  refine ⟨rfl, by simp [merge_chunks], ?_, ?_⟩
  · rw [merge_chunks]
    by_cases h : chunks.isEmpty || processed.isEmpty
    · rw [if_pos h, if_pos h]
    · rw [if_neg h, if_neg h, mergeLoop_eq_map_included]
  · have hcond : (([] : List (Nat × Nat)) ++ [(c1.char_start, c1.char_end)]).any
        (rangesOverlap c2.char_start c2.char_end) = true := by
      simp only [List.nil_append, List.any_cons, List.any_nil, Bool.or_false,
        rangesOverlap, decide_eq_true_eq]
      rw [← hs, ← he]
      omega
    rw [merge_chunks]
    rw [if_neg (by simp)]
    show (mergeLoop [(c1, p1), (c2, p2)] []).flatten = _
    rw [mergeLoop]
    rw [if_neg (by simp)]
    rw [mergeLoop]
    rw [if_pos hcond]
    rw [mergeLoop]
    simp

theorem claim_C3_merger_overlap_skip_and_fallback_witness :
    ((⟨1, 2, "ho".toList, 0, 2, 0, 1⟩ : Chunk).char_start =
        (⟨2, 2, "ho".toList, 0, 2, 1, 2⟩ : Chunk).char_start ∧
      (⟨1, 2, "ho".toList, 0, 2, 0, 1⟩ : Chunk).char_end =
        (⟨2, 2, "ho".toList, 0, 2, 1, 2⟩ : Chunk).char_end ∧
      (⟨1, 2, "ho".toList, 0, 2, 0, 1⟩ : Chunk).char_start <
        (⟨1, 2, "ho".toList, 0, 2, 0, 1⟩ : Chunk).char_end) ∧
    merge_chunks [⟨1, 2, "ho".toList, 0, 2, 0, 1⟩, ⟨2, 2, "ho".toList, 0, 2, 1, 2⟩]
        ["XX".toList, "YY".toList] =
      (if ("XX".toList : List Char).isEmpty then "ho".toList else "XX".toList) :=
  ⟨⟨rfl, rfl, by decide⟩,
    (claim_C3_merger_overlap_skip_and_fallback [] []
      ⟨1, 2, "ho".toList, 0, 2, 0, 1⟩ ⟨2, 2, "ho".toList, 0, 2, 1, 2⟩
      "XX".toList "YY".toList rfl rfl (by decide)).2.2.2⟩


/-- Prefix test: the first list read as a pattern starts the second. -/
def leadsWith : List Char → List Char → Bool
  | [], _ => true
  | _ :: _, [] => false
  | p :: ps, c :: cs => p == c && leadsWith ps cs

/-- Substring test modelling the Python membership test on strings. -/
def hasSub (pat : List Char) : List Char → Bool
  | [] => leadsWith pat []
  | c :: cs => leadsWith pat (c :: cs) || hasSub pat cs

/-- Removal of every non-overlapping occurrence of a pattern, scanning left
to right, modelling str.replace with an empty replacement. Structural fuel
equal to the input length; every step consumes at least one character, so
the fuel never runs out on the initial call. -/
def removeAllAux (pat : List Char) : Nat → List Char → List Char
  | 0, s => s
  | fuel + 1, s =>
    match s with
    | [] => []
    | c :: cs =>
      if leadsWith pat (c :: cs) && !pat.isEmpty then
        removeAllAux pat fuel ((c :: cs).drop pat.length)
      else c :: removeAllAux pat fuel cs

def removeAll (pat s : List Char) : List Char := removeAllAux pat s.length s

/-- PLACEHOLDER_TOKENS from the source. -/
def PLACEHOLDER_TOKENS : List (List Char) :=
  ["[NOMBRE APELLIDO]".toList, "[DOMICILIO]".toList, "[DOCUMENTO]".toList,
    "[TELEFONO]".toList, "[EMAIL]".toList, "[CUENTA BANCARIA]".toList]

/-- remove_placeholders from the source: sequentially strip every occurrence
of each placeholder token, in the fixed token order. -/
def remove_placeholders (text : List Char) : List Char :=
  PLACEHOLDER_TOKENS.foldl (fun cleaned token => removeAll token cleaned) text

/-- contains_placeholder from the source. -/
def contains_placeholder (text : List Char) : Bool :=
  PLACEHOLDER_TOKENS.any (fun token => hasSub token text)

/-- Whitespace-only test modelling the falsiness of str.strip(). -/
def isBlank (s : List Char) : Bool := s.all isWS

/-- str.strip(): drop leading and trailing whitespace. -/
def stripWS (s : List Char) : List Char :=
  ((s.dropWhile isWS).reverse.dropWhile isWS).reverse

/-- Opcode tags of the difflib alignment. -/
inductive Tag where
  | equal
  | replace
  | insert
  | delete
  deriving Repr, DecidableEq

/-- One opcode of the external sequence aligner: a tag plus the aligned
half-open index ranges in the original and transformed documents. The
aligner itself is Python stdlib difflib and is treated as an oracle; the
claims concern how its opcodes are filtered. -/
structure Opcode where
  tag : Tag
  i1 : Nat
  i2 : Nat
  j1 : Nat
  j2 : Nat
  deriving Repr, DecidableEq

/-- Python slice s[a:b] for a text. -/
def sliceOf (s : List Char) (a b : Nat) : List Char := (s.drop a).take (b - a)

structure SuspiciousRecord where
  type : Tag
  original : List Char
  anon : List Char
  deriving Repr, DecidableEq

/-- Per-opcode body of the detect_suspicious_edits loop: the skip conditions
of the source, returning the appended record when not skipped. -/
def flagRecord (original_text anonymized_text : List Char) (op : Opcode) :
    Option SuspiciousRecord :=
  if op.tag = Tag.equal then none
  else if isBlank (sliceOf original_text op.i1 op.i2) &&
      isBlank (sliceOf anonymized_text op.j1 op.j2) then none
  else if (op.tag = Tag.replace ∨ op.tag = Tag.insert) ∧
      contains_placeholder (sliceOf anonymized_text op.j1 op.j2) = true ∧
      isBlank (remove_placeholders (sliceOf anonymized_text op.j1 op.j2)) = true then none
  else if op.tag = Tag.delete ∧ isBlank (sliceOf original_text op.i1 op.i2) = true then none
  else some ⟨op.tag, stripWS (sliceOf original_text op.i1 op.i2),
    stripWS (sliceOf anonymized_text op.j1 op.j2)⟩

/-- Loop of detect_suspicious_edits: append each flagged record and stop as
soon as the cap is reached. -/
def detectLoop (original anonymized : List Char) (max_items : Nat) :
    List Opcode → List SuspiciousRecord → List SuspiciousRecord
  | [], acc => acc
  | op :: rest, acc =>
    match flagRecord original anonymized op with
    | none => detectLoop original anonymized max_items rest acc
    | some r =>
      if max_items ≤ (acc ++ [r]).length then acc ++ [r]
      else detectLoop original anonymized max_items rest (acc ++ [r])

/-- detect_suspicious_edits from the source, over the oracle opcode list. -/
def detect_suspicious_edits (original anonymized : List Char)
    (opcodes : List Opcode) (max_items : Nat) : List SuspiciousRecord :=
  detectLoop original anonymized max_items opcodes []

theorem detectLoop_eq_take (original anonymized : List Char) (max_items : Nat) :
    ∀ (ops : List Opcode) (acc : List SuspiciousRecord),
      acc.length < max_items →
      detectLoop original anonymized max_items ops acc =
        acc ++ (ops.filterMap (flagRecord original anonymized)).take
          (max_items - acc.length) := by
  intro ops
  induction ops with
  | nil => intro acc _; simp [detectLoop]
  | cons op rest ih =>
    intro acc hacc
    rw [detectLoop]
    cases hf : flagRecord original anonymized op with
    | none =>
      rw [ih acc hacc]
      simp [List.filterMap_cons, hf]
    | some r =>
      simp only [List.filterMap_cons, hf]
      by_cases hcap : max_items ≤ (acc ++ [r]).length
      · rw [if_pos hcap]
        have hmi : max_items - acc.length = 1 := by
          simp only [List.length_append, List.length_singleton] at hcap
          omega
        rw [hmi]
        simp
      · rw [if_neg hcap]
        have hlt : (acc ++ [r]).length < max_items := by
          simp only [List.length_append, List.length_singleton] at hcap ⊢
          omega
        rw [ih (acc ++ [r]) hlt]
        have : max_items - acc.length = (max_items - (acc ++ [r]).length) + 1 := by
          simp only [List.length_append, List.length_singleton]
          omega
        rw [this]
        simp [List.take_succ_cons]

theorem flagRecord_none_iff (original anonymized : List Char) (op : Opcode) :
    flagRecord original anonymized op = none ↔
      (op.tag = Tag.equal ∨
        (isBlank (sliceOf original op.i1 op.i2) = true ∧
          isBlank (sliceOf anonymized op.j1 op.j2) = true) ∨
        ((op.tag = Tag.replace ∨ op.tag = Tag.insert) ∧
          contains_placeholder (sliceOf anonymized op.j1 op.j2) = true ∧
          isBlank (remove_placeholders (sliceOf anonymized op.j1 op.j2)) = true) ∨
        (op.tag = Tag.delete ∧ isBlank (sliceOf original op.i1 op.i2) = true)) := by
  rw [flagRecord]
  by_cases h1 : op.tag = Tag.equal
  · rw [if_pos h1]
    simp [h1]
  · rw [if_neg h1]
    by_cases h2 : (isBlank (sliceOf original op.i1 op.i2) &&
        isBlank (sliceOf anonymized op.j1 op.j2)) = true
    · rw [if_pos h2]
      simp only [Bool.and_eq_true] at h2
      simp [h2]
    · rw [if_neg h2]
      by_cases h3 : (op.tag = Tag.replace ∨ op.tag = Tag.insert) ∧
          contains_placeholder (sliceOf anonymized op.j1 op.j2) = true ∧
          isBlank (remove_placeholders (sliceOf anonymized op.j1 op.j2)) = true
      · rw [if_pos h3]
        simp [h3]
      · rw [if_neg h3]
        by_cases h4 : op.tag = Tag.delete ∧
            isBlank (sliceOf original op.i1 op.i2) = true
        · rw [if_pos h4]
          simp [h4]
        · rw [if_neg h4]
          simp only [Bool.and_eq_true] at h2
          constructor
          · intro h
            exact absurd h (by simp)
          · intro h
            rcases h with h | h | h | h
            · exact absurd h h1
            · exact absurd h h2
            · exact absurd h h3
            · exact absurd h h4

/-- C4 amended: a non-equal aligned region is left unflagged exactly when
both sides are whitespace-only, or it is a replace/insert whose transformed
segment contains at least one recognized placeholder and reduces to
whitespace after removing every placeholder occurrence token by token, or it
is a delete of a whitespace-only original segment; flagged regions are
reported in order up to the cap, and iteration stops at the cap. -/
theorem claim_C4_amended_divergence_filter (original anonymized : List Char)
    (opcodes : List Opcode) (max_items : Nat) (hmi : 1 ≤ max_items) :
    detect_suspicious_edits original anonymized opcodes max_items =
      (opcodes.filterMap (flagRecord original anonymized)).take max_items ∧
    ∀ op : Opcode, flagRecord original anonymized op = none ↔
      (op.tag = Tag.equal ∨
        (isBlank (sliceOf original op.i1 op.i2) = true ∧
          isBlank (sliceOf anonymized op.j1 op.j2) = true) ∨
        ((op.tag = Tag.replace ∨ op.tag = Tag.insert) ∧
          contains_placeholder (sliceOf anonymized op.j1 op.j2) = true ∧
          isBlank (remove_placeholders (sliceOf anonymized op.j1 op.j2)) = true) ∨
        (op.tag = Tag.delete ∧ isBlank (sliceOf original op.i1 op.i2) = true)) := by
  constructor
  · rw [detect_suspicious_edits, detectLoop_eq_take original anonymized max_items opcodes []
      (by simpa using hmi)]
    simp
  · exact fun op => flagRecord_none_iff original anonymized op

theorem claim_C4_amended_divergence_filter_witness :
    1 ≤ 10 ∧
    (detect_suspicious_edits "abc".toList "xyz".toList
        [⟨Tag.delete, 0, 3, 0, 0⟩] 10 =
      (([⟨Tag.delete, 0, 3, 0, 0⟩] : List Opcode).filterMap
          (flagRecord "abc".toList "xyz".toList)).take 10 ∧
      ∀ op : Opcode, flagRecord "abc".toList "xyz".toList op = none ↔
        (op.tag = Tag.equal ∨
          (isBlank (sliceOf "abc".toList op.i1 op.i2) = true ∧
            isBlank (sliceOf "xyz".toList op.j1 op.j2) = true) ∨
          ((op.tag = Tag.replace ∨ op.tag = Tag.insert) ∧
            contains_placeholder (sliceOf "xyz".toList op.j1 op.j2) = true ∧
            isBlank (remove_placeholders (sliceOf "xyz".toList op.j1 op.j2)) = true) ∨
          (op.tag = Tag.delete ∧ isBlank (sliceOf "abc".toList op.i1 op.i2) = true))) :=
  ⟨by norm_num,
    claim_C4_amended_divergence_filter "abc".toList "xyz".toList
      [⟨Tag.delete, 0, 3, 0, 0⟩] 10 (by norm_num)⟩

/-- Single-token strip used by the spec-side placeholder parser. -/
def stripTok (pat s : List Char) : Option (List Char) :=
  if leadsWith pat s then some (s.drop pat.length) else none

def stripAnyFrom : List (List Char) → List Char → Option (List Char)
  | [], _ => none
  | t :: ts, s =>
    match stripTok t s with
    | some r => some r
    | none => stripAnyFrom ts s

/-- Modelled from the spec: greedy parser for "a concatenation of whitespace
and whole recognized placeholder tokens". Structural fuel equal to the input
length; every step consumes at least one character. -/
def placeholderConcatAux : Nat → List Char → Bool
  | 0, s => s.isEmpty
  | fuel + 1, s =>
    match s with
    | [] => true
    | c :: cs =>
      if isWS c then placeholderConcatAux fuel cs
      else
        match stripAnyFrom PLACEHOLDER_TOKENS (c :: cs) with
        | some r => placeholderConcatAux fuel r
        | none => false

def placeholderConcat (s : List Char) : Bool := placeholderConcatAux s.length s

/-- Modelled from the spec: the transformed segment "consists entirely of
one or more recognized redaction placeholders with no other non-whitespace
content". -/
def spec_entirely_placeholders (s : List Char) : Bool :=
  placeholderConcat s && !(isBlank s)

/-- C4 counterexample: the transformed segment [DOC[DOMICILIO]UMENTO] does
not consist of recognized placeholders (plus whitespace), yet the validator
leaves the replace region unflagged: removing [DOMICILIO] splices the
remaining halves into [DOCUMENTO], which the next removal pass deletes, so
the code's emptiness-after-removal check passes. -/
theorem claim_C4_counterexample :
    detect_suspicious_edits "x".toList "[DOC[DOMICILIO]UMENTO]".toList
        [⟨Tag.replace, 0, 1, 0, 22⟩] 10 = [] ∧
    spec_entirely_placeholders
      (sliceOf "[DOC[DOMICILIO]UMENTO]".toList 0 22) = false ∧
    isBlank (sliceOf "x".toList 0 1) = false ∧
    isBlank (sliceOf "[DOC[DOMICILIO]UMENTO]".toList 0 22) = false := by
  decide


/-- Outcome of one attempt against the rewriting endpoint: transport
failure, non-success HTTP status, a response without choices, a response of
the wrong shape, or the returned message content. -/
inductive AttemptResult where
  | transportError
  | httpError
  | noChoices
  | badShape
  | content (s : List Char)
  deriving Repr, DecidableEq

/-- Success test of one attempt: the source returns the content only when
it is non-empty and not whitespace-only; every other outcome raises and is
retried. -/
def successContent : AttemptResult → Option (List Char)
  | AttemptResult.content s => if isBlank s then none else some s
  | _ => none

/-- Result of generate together with the warning-level retry notifications
(the logged linear-backoff wait times), in order. -/
structure GenOutcome where
  result : Except AttemptResult (List Char)
  warns : List ℚ
  deriving Repr

/-- Retry loop of LMStudioClient.generate: attempts are numbered from 0; a
failing attempt with retries remaining logs a warning and waits
backoff*(attempt+1); an exhausted budget returns a terminal error wrapping
the last cause. The remaining-retries count max_retries - attempt is the
structural argument. -/
def genAux (responses : Nat → AttemptResult) (backoff : ℚ) :
    (attempt : Nat) → (remaining : Nat) → GenOutcome
  | attempt, 0 =>
    match successContent (responses attempt) with
    | some s => ⟨Except.ok s, []⟩
    | none => ⟨Except.error (responses attempt), []⟩
  | attempt, remaining + 1 =>
    match successContent (responses attempt) with
    | some s => ⟨Except.ok s, []⟩
    | none =>
      let rest := genAux responses backoff (attempt + 1) remaining
      ⟨rest.result, backoff * ((attempt : ℚ) + 1) :: rest.warns⟩

/-- LMStudioClient.generate from the source, over an oracle giving the
outcome of each attempt. -/
def generate (responses : Nat → AttemptResult) (max_retries : Nat)
    (backoff_seconds : ℚ) : GenOutcome :=
  genAux responses backoff_seconds 0 max_retries

theorem genAux_spec (responses : Nat → AttemptResult) (backoff : ℚ) :
    ∀ (remaining attempt : Nat), ∃ k, k ≤ remaining ∧
      (genAux responses backoff attempt remaining).warns =
        (List.range k).map (fun n => backoff * ((attempt + n + 1 : Nat) : ℚ)) ∧
      (∀ i, i < k → successContent (responses (attempt + i)) = none) ∧
      ((∃ s, successContent (responses (attempt + k)) = some s ∧
          (genAux responses backoff attempt remaining).result = Except.ok s) ∨
        (k = remaining ∧ successContent (responses (attempt + k)) = none ∧
          (genAux responses backoff attempt remaining).result =
            Except.error (responses (attempt + k)))) := by
  intro remaining
  induction remaining with
  | zero =>
    intro attempt
    refine ⟨0, le_refl 0, ?_, ?_, ?_⟩
    · rw [genAux]
      cases h : successContent (responses attempt) <;> simp
    · intro i hi
      omega
    · rw [genAux]
      cases h : successContent (responses attempt) with
      | none => right; simpa using h
      | some s => left; exact ⟨s, by simpa using h, by simp⟩
  | succ rem ih =>
    intro attempt
    rw [genAux]
    cases h : successContent (responses attempt) with
    | some s =>
      refine ⟨0, by omega, by simp, by omega, ?_⟩
      left
      exact ⟨s, by simpa using h, by simp⟩
    | none =>
      obtain ⟨k, hk, hwarns, hfails, hres⟩ := ih (attempt + 1)
      refine ⟨k + 1, by omega, ?_, ?_, ?_⟩
      · show backoff * ((attempt : ℚ) + 1) ::
            (genAux responses backoff (attempt + 1) rem).warns =
          (List.range (k + 1)).map (fun n => backoff * ((attempt + n + 1 : Nat) : ℚ))
        rw [hwarns, List.range_succ_eq_map, List.map_cons, List.map_map]
        congr 1
        · push_cast
          ring
        · apply List.map_congr_left
          intro n _
          simp only [Function.comp]
          congr 1
          exact congrArg Nat.cast (by omega)
      · intro i hi
        cases i with
        | zero => simpa using h
        | succ j =>
          have : attempt + (j + 1) = attempt + 1 + j := by omega
          rw [this]
          exact hfails j (by omega)
      · have harith : attempt + 1 + k = attempt + (k + 1) := by omega
        rcases hres with ⟨s, hs, hr⟩ | ⟨hke, hs, hr⟩
        · left
          exact ⟨s, by rw [← harith]; exact hs, by simpa using hr⟩
        · right
          refine ⟨by omega, by rw [← harith]; exact hs, ?_⟩
          simp only []
          rw [hr, harith]

/-- C5: generate makes at most max_retries attempts beyond the first,
retries only after a failed attempt (transport error, bad status, missing
choices, bad shape, or empty/whitespace-only content), waits
backoff*(n) before the n-th retry (warning-level notifications, in order),
raises a terminal error wrapping the last cause when all attempts fail, and
in the fails-twice-then-succeeds scenario with max_retries = 2 returns the
successful content after exactly two retry warnings. -/
theorem claim_C5_transform_client_retry (responses : Nat → AttemptResult)
    (max_retries : Nat) (backoff : ℚ) :
    (generate responses max_retries backoff).warns.length ≤ max_retries ∧
    (generate responses max_retries backoff).warns =
      (List.range (generate responses max_retries backoff).warns.length).map
        (fun n : Nat => backoff * ((n : ℚ) + 1)) ∧
    (∀ i, i < (generate responses max_retries backoff).warns.length →
      successContent (responses i) = none) ∧
    ((∀ i, i ≤ max_retries → successContent (responses i) = none) →
      (generate responses max_retries backoff).result =
          Except.error (responses max_retries) ∧
        (generate responses max_retries backoff).warns.length = max_retries) ∧
    (max_retries = 2 → successContent (responses 0) = none →
      successContent (responses 1) = none →
      ∀ s, successContent (responses 2) = some s →
        (generate responses max_retries backoff).result = Except.ok s ∧
          (generate responses max_retries backoff).warns.length = 2) := by
  obtain ⟨k, hk, hwarns, hfails, hres⟩ := genAux_spec responses backoff max_retries 0
  have hwl : (generate responses max_retries backoff).warns.length = k := by
    rw [generate, hwarns]
    simp
  have hshape : (generate responses max_retries backoff).warns =
      (List.range k).map (fun n : Nat => backoff * ((n : ℚ) + 1)) := by
    rw [generate, hwarns]
    apply List.map_congr_left
    intro n _
    congr 1
    push_cast
    ring
  have hzero : ∀ i : Nat, (0 : Nat) + i = i := by omega
  refine ⟨by omega, by rw [hwl]; exact hshape, ?_, ?_, ?_⟩
  · intro i hi
    have := hfails i (by omega)
    rwa [hzero] at this
  · intro hall
    rcases hres with ⟨s, hs, _⟩ | ⟨hke, _, hr⟩
    · rw [hzero] at hs
      rw [hall k (by omega)] at hs
      exact absurd hs (by simp)
    · rw [hzero] at hr
      rw [hke] at hr
      exact ⟨by rw [generate]; exact hr, by omega⟩
  · intro hmr h0 h1 s hs
    subst hmr
    rcases hres with ⟨t, ht, hr⟩ | ⟨hke, hexh, _⟩
    · rw [hzero] at ht
      have hk2 : k = 2 := by
        rcases Nat.lt_or_ge k 2 with hlt | hge
        · interval_cases k
          · rw [h0] at ht
            exact absurd ht (by simp)
          · rw [h1] at ht
            exact absurd ht (by simp)
        · omega
      rw [hk2, hs] at ht
      obtain rfl : s = t := by
        simpa using ht
      exact ⟨by rw [generate]; exact hr, by omega⟩
    · rw [hzero, hke] at hexh
      rw [hs] at hexh
      exact absurd hexh (by simp)

/-- Attempt oracle for the retry witness: fails twice, then succeeds. -/
def respW : Nat → AttemptResult := fun n =>
  if n = 0 then AttemptResult.transportError
  else if n = 1 then AttemptResult.noChoices
  else AttemptResult.content "texto".toList

theorem claim_C5_transform_client_retry_witness :
    ((2 : Nat) = 2 ∧ successContent (respW 0) = none ∧
      successContent (respW 1) = none ∧
      successContent (respW 2) = some "texto".toList) ∧
    (generate respW 2 2).result = Except.ok "texto".toList ∧
      (generate respW 2 2).warns.length = 2 :=
  ⟨⟨rfl, rfl, rfl, rfl⟩,
    (claim_C5_transform_client_retry respW 2 2).2.2.2.2 rfl rfl rfl
      "texto".toList rfl⟩


/-- Outcome of process_chunks: the results array, the failed-chunk indices,
the progress notifications in emission order, and the propagated exception
when the run aborted. -/
structure ProcOutcome where
  results : List (List Char)
  failed_chunks : List Nat
  progress : List (Nat × Nat)
  error : Option (List Char)
  deriving Repr

/-- Loop of process_chunks: one transform call per chunk; a success stores
the response at index - 1; a failure appends the index to the failed list
and, under abort-on-failure, propagates the exception right after the final
progress update for that chunk; every processed chunk emits one progress
notification. -/
def procLoop (gen : Chunk → Except (List Char) (List Char)) (total : Nat)
    (abort_on_failure : Bool) :
    List Chunk → List (List Char) → List Nat → List (Nat × Nat) → ProcOutcome
  | [], results, failed, prog => ⟨results, failed, prog, none⟩
  | chunk :: rest, results, failed, prog =>
    match gen chunk with
    | Except.ok response =>
      procLoop gen total abort_on_failure rest
        (results.set (chunk.index - 1) response) failed
        (prog ++ [(chunk.index, total)])
    | Except.error e =>
      if abort_on_failure then
        ⟨results, failed ++ [chunk.index], prog ++ [(chunk.index, total)], some e⟩
      else
        procLoop gen total abort_on_failure rest results
          (failed ++ [chunk.index]) (prog ++ [(chunk.index, total)])

/-- process_chunks from the source: results start as empty placeholders, the
0/total progress notification precedes the first chunk. -/
def process_chunks (chunks : List Chunk)
    (gen : Chunk → Except (List Char) (List Char)) (abort_on_failure : Bool) :
    ProcOutcome :=
  procLoop gen chunks.length abort_on_failure chunks
    (List.replicate chunks.length []) [] [(0, chunks.length)]

/-- Canonical 1-based indexing, as produced by the chunk planner. -/
def canonicalIdx (chunks : List Chunk) : Prop :=
  ∀ i, i < chunks.length → (chunks.getD i default).index = i + 1

/-- Indices of the chunks whose transform call fails, in order. -/
def failList (gen : Chunk → Except (List Char) (List Char))
    (cs : List Chunk) : List Nat :=
  (cs.filter (fun c => !(isOkE (gen c)))).map Chunk.index

/-- One progress pair per chunk, in order. -/
def progressList (total : Nat) (cs : List Chunk) : List (Nat × Nat) :=
  cs.map (fun c => (c.index, total))

/-- The result updates performed by the loop: responses stored at
index - 1, failures leaving the existing placeholder. -/
def applyResults (gen : Chunk → Except (List Char) (List Char)) :
    List Chunk → List (List Char) → List (List Char)
  | [], r => r
  | c :: cs, r =>
    match gen c with
    | Except.ok resp => applyResults gen cs (r.set (c.index - 1) resp)
    | Except.error _ => applyResults gen cs r

theorem getD_set_self {α : Type} :
    ∀ (l : List α) (m : Nat) (v d : α), m < l.length →
      (l.set m v).getD m d = v := by
  intro l
  induction l with
  | nil => intro m v d h; simp at h
  | cons a as ih =>
    intro m v d h
    cases m with
    | zero => rfl
    | succ m2 =>
      simp only [List.set_cons_succ, List.getD_cons_succ]
      exact ih m2 v d (by simpa using h)

theorem getD_set_ne {α : Type} :
    ∀ (l : List α) (m i : Nat) (v d : α), m ≠ i →
      (l.set m v).getD i d = l.getD i d := by
  intro l
  induction l with
  | nil => intro m i v d h; simp
  | cons a as ih =>
    intro m i v d h
    cases m with
    | zero =>
      cases i with
      | zero => exact absurd rfl h
      | succ j => rfl
    | succ m2 =>
      cases i with
      | zero => rfl
      | succ j =>
        simp only [List.set_cons_succ, List.getD_cons_succ]
        exact ih m2 j v d (by omega)

theorem getD_replicate : ∀ (n i : Nat),
    (List.replicate n ([] : List Char)).getD i [] = [] := by
  intro n
  induction n with
  | zero => intro i; simp
  | succ n2 ih =>
    intro i
    cases i with
    | zero => rfl
    | succ j =>
      simp only [List.replicate_succ, List.getD_cons_succ]
      exact ih j

theorem applyResults_length (gen : Chunk → Except (List Char) (List Char)) :
    ∀ (cs : List Chunk) (r : List (List Char)),
      (applyResults gen cs r).length = r.length := by
  intro cs
  induction cs with
  | nil => intro r; rfl
  | cons c rest ih =>
    intro r
    rw [applyResults]
    cases gen c with
    | ok resp => rw [ih]; simp
    | error e => exact ih r

theorem applyResults_getD_out (gen : Chunk → Except (List Char) (List Char)) :
    ∀ (cs : List Chunk) (p : Nat) (r : List (List Char)),
      (∀ j, j < cs.length → (cs.getD j default).index = p + j + 1) →
      ∀ i, i < p ∨ p + cs.length ≤ i →
        (applyResults gen cs r).getD i [] = r.getD i [] := by
  intro cs
  induction cs with
  | nil => intro p r _ i _; rfl
  | cons c rest ih =>
    intro p r hcan i hi
    rw [applyResults]
    have hc : c.index = p + 1 := by
      have := hcan 0 (by simp)
      simpa using this
    have hcan2 : ∀ j, j < rest.length → (rest.getD j default).index = (p + 1) + j + 1 := by
      intro j hj
      have := hcan (j + 1) (by simpa using Nat.succ_lt_succ hj)
      simp only [List.getD_cons_succ] at this
      omega
    cases gen c with
    | ok resp =>
      rw [ih (p + 1) _ hcan2 i (by simp at hi ⊢; omega)]
      rw [hc]
      simp only [Nat.add_sub_cancel]
      exact getD_set_ne r p i resp [] (by simp at hi; omega)
    | error e =>
      exact ih (p + 1) r hcan2 i (by simp at hi ⊢; omega)

theorem applyResults_getD_in (gen : Chunk → Except (List Char) (List Char)) :
    ∀ (cs : List Chunk) (p : Nat) (r : List (List Char)),
      (∀ j, j < cs.length → (cs.getD j default).index = p + j + 1) →
      p + cs.length ≤ r.length →
      ∀ i, p ≤ i → i < p + cs.length →
        (applyResults gen cs r).getD i [] =
          (match gen (cs.getD (i - p) default) with
           | Except.ok resp => resp
           | Except.error _ => r.getD i []) := by
  intro cs
  induction cs with
  | nil =>
    intro p r _ _ i h1 h2
    exact absurd h2 (by simp only [List.length_nil, Nat.add_zero]; omega)
  | cons c rest ih =>
    intro p r hcan hlen i h1 h2
    rw [applyResults]
    have hc : c.index = p + 1 := by
      have := hcan 0 (by simp)
      simpa using this
    have hcan2 : ∀ j, j < rest.length → (rest.getD j default).index = (p + 1) + j + 1 := by
      intro j hj
      have := hcan (j + 1) (by simpa using Nat.succ_lt_succ hj)
      simp only [List.getD_cons_succ] at this
      omega
    by_cases hip : i = p
    · subst hip
      simp only [Nat.sub_self, List.getD_cons_zero]
      cases hg : gen c with
      | ok resp =>
        rw [applyResults_getD_out gen rest (i + 1) _ hcan2 i (by omega)]
        rw [hc]
        simp only [Nat.add_sub_cancel]
        exact getD_set_self r i resp [] (by simp at hlen; omega)
      | error e =>
        rw [applyResults_getD_out gen rest (i + 1) r hcan2 i (by omega)]
    · have hgt : p + 1 ≤ i := by omega
      have hsub : i - p = (i - (p + 1)) + 1 := by omega
      rw [hsub]
      simp only [List.getD_cons_succ]
      cases hg : gen c with
      | ok resp =>
        have hlen2 : (p + 1) + rest.length ≤ (r.set (c.index - 1) resp).length := by
          rw [List.length_set]
          simp only [List.length_cons] at hlen
          omega
        rw [ih (p + 1) _ hcan2 hlen2 i hgt (by simp at h2 ⊢; omega)]
        rw [hc]
        simp only [Nat.add_sub_cancel]
        have : (r.set p resp).getD i [] = r.getD i [] :=
          getD_set_ne r p i resp [] (by omega)
        cases gen (rest.getD (i - (p + 1)) default) with
        | ok resp2 => rfl
        | error e2 => simp only []; exact this
      | error e =>
        exact ih (p + 1) r hcan2
          (by simp only [List.length_cons] at hlen; omega) i hgt
          (by simp at h2 ⊢; omega)


theorem procLoop_continue (gen : Chunk → Except (List Char) (List Char))
    (total : Nat) :
    ∀ (cs : List Chunk) (results : List (List Char)) (failed : List Nat)
      (prog : List (Nat × Nat)),
      procLoop gen total false cs results failed prog =
        ⟨applyResults gen cs results, failed ++ failList gen cs,
          prog ++ progressList total cs, none⟩ := by
  intro cs
  induction cs with
  | nil => intro results failed prog; simp [procLoop, applyResults, failList, progressList]
  | cons c rest ih =>
    intro results failed prog
    cases hg : gen c with
    | ok resp =>
      have hfail : failList gen (c :: rest) = failList gen rest := by
        rw [failList, failList, List.filter_cons]
        rw [if_neg (by simp [isOkE, hg])]
      simp only [procLoop, hg]
      rw [ih, applyResults, hg, hfail]
      have hprog : progressList total (c :: rest) =
          (c.index, total) :: progressList total rest := rfl
      rw [hprog]
      simp
    | error e =>
      have hfail : failList gen (c :: rest) = c.index :: failList gen rest := by
        rw [failList, failList, List.filter_cons]
        rw [if_pos (by simp [isOkE, hg])]
        rfl
      simp only [procLoop, hg]
      rw [if_neg (by simp)]
      rw [ih, applyResults, hg, hfail]
      have hprog : progressList total (c :: rest) =
          (c.index, total) :: progressList total rest := rfl
      rw [hprog]
      simp

theorem procLoop_abort (gen : Chunk → Except (List Char) (List Char))
    (total : Nat) :
    ∀ (cs : List Chunk) (k : Nat), k < cs.length → ∀ (e : List Char),
      (∀ j, j < k → isOkE (gen (cs.getD j default)) = true) →
      gen (cs.getD k default) = Except.error e →
      ∀ (results : List (List Char)) (failed : List Nat)
        (prog : List (Nat × Nat)),
      procLoop gen total true cs results failed prog =
        ⟨applyResults gen (cs.take k) results,
          failed ++ [(cs.getD k default).index],
          prog ++ progressList total (cs.take (k + 1)), some e⟩ := by
  intro cs
  induction cs with
  | nil => intro k hk; simp at hk
  | cons c rest ih =>
    intro k hk e hok hfail results failed prog
    cases k with
    | zero =>
      simp only [List.getD_cons_zero] at hfail ⊢
      simp only [procLoop, hfail]
      simp [applyResults, progressList]
    | succ j =>
      have hcok : isOkE (gen c) = true := by
        have := hok 0 (by omega)
        simpa using this
      cases hg : gen c with
      | error e2 => rw [hg] at hcok; simp [isOkE] at hcok
      | ok resp =>
        simp only [procLoop, hg]
        have hok2 : ∀ j2, j2 < j → isOkE (gen (rest.getD j2 default)) = true := by
          intro j2 hj2
          have := hok (j2 + 1) (by omega)
          simpa using this
        have hfail2 : gen (rest.getD j default) = Except.error e := by
          simpa using hfail
        rw [ih j (by simpa using hk) e hok2 hfail2]
        have happly : applyResults gen ((c :: rest).take (j + 1)) results =
            applyResults gen (rest.take j) (results.set (c.index - 1) resp) := by
          rw [List.take_succ_cons, applyResults, hg]
        have hprog2 : progressList total ((c :: rest).take (j + 2)) =
            (c.index, total) :: progressList total (rest.take (j + 1)) := by
          rw [List.take_succ_cons]
          rfl
        rw [happly, hprog2]
        simp

theorem procLoop_progress (gen : Chunk → Except (List Char) (List Char))
    (total : Nat) (abort : Bool) :
    ∀ (cs : List Chunk) (results : List (List Char)) (failed : List Nat)
      (prog : List (Nat × Nat)),
      ∃ m, m ≤ cs.length ∧
        (procLoop gen total abort cs results failed prog).progress =
          prog ++ progressList total (cs.take m) ∧
        (abort = false → m = cs.length) := by
  intro cs
  induction cs with
  | nil =>
    intro results failed prog
    exact ⟨0, by omega, by simp [procLoop, progressList], fun _ => rfl⟩
  | cons c rest ih =>
    intro results failed prog
    cases hg : gen c with
    | ok resp =>
      obtain ⟨m, hm, hp, hab⟩ := ih (results.set (c.index - 1) resp) failed
        (prog ++ [(c.index, total)])
      refine ⟨m + 1, by simpa using Nat.succ_le_succ hm, ?_, ?_⟩
      · simp only [procLoop, hg]
        rw [hp, List.take_succ_cons]
        have : progressList total (c :: rest.take m) =
            (c.index, total) :: progressList total (rest.take m) := rfl
        rw [this]
        simp
      · intro hfalse
        rw [hab hfalse]
        simp
    | error e =>
      by_cases habort : abort = true
      · refine ⟨1, by simp, ?_, ?_⟩
        · simp only [procLoop, hg]
          rw [if_pos habort]
          simp [progressList]
        · intro hfalse
          rw [hfalse] at habort
          exact absurd habort (by simp)
      · obtain ⟨m, hm, hp, hab⟩ := ih results (failed ++ [c.index])
          (prog ++ [(c.index, total)])
        refine ⟨m + 1, by simpa using Nat.succ_le_succ hm, ?_, ?_⟩
        · simp only [procLoop, hg]
          rw [if_neg habort]
          rw [hp, List.take_succ_cons]
          have : progressList total (c :: rest.take m) =
              (c.index, total) :: progressList total (rest.take m) := rfl
          rw [this]
          simp
        · intro hfalse
          rw [hab hfalse]
          simp

/-- Under canonical indexing, the emitted progress pairs over a prefix are
the consecutive counters. -/
theorem progressList_take_shape (total : Nat) (cs : List Chunk)
    (hcan : canonicalIdx cs) (m : Nat) (hm : m ≤ cs.length) :
    progressList total (cs.take m) =
      (List.range m).map (fun i => (i + 1, total)) := by
  apply List.ext_getElem
  · simp [progressList]
    omega
  · intro i h1 h2
    simp only [progressList, List.getElem_map, List.getElem_take, List.getElem_range]
    have hi : i < cs.length := by
      simp [progressList] at h1
      omega
    have := hcan i hi
    rw [List.getD_eq_getElem cs default hi] at this
    rw [this]


theorem range_pairs_shape (n k : Nat) :
    (List.range (k + 1)).map (fun i => (i, n)) =
      (0, n) :: (List.range k).map (fun i => (i + 1, n)) := by
  rw [List.range_succ_eq_map]
  simp only [List.map_cons, List.map_map]
  congr 1

theorem chain_pairs (n N : Nat) :
    List.Chain' (fun a b : Nat × Nat => a.1 ≤ b.1)
      ((List.range N).map (fun i => (i, n))) := by
  rw [List.chain'_map]
  cases N with
  | zero => simp
  | succ N2 =>
    rw [List.chain'_range_succ]
    intro m _
    simp

/-- C7: when a chunk's transform call fails its index is appended to the
failed list, its result stays the empty placeholder, and processing
continues; under abort-on-failure the exception propagates right after the
final progress update for the failing chunk and no later chunk contributes
a result. -/
theorem claim_C7_processor_failure_policy (chunks : List Chunk)
    (gen : Chunk → Except (List Char) (List Char))
    (hcan : canonicalIdx chunks) :
    ((process_chunks chunks gen false).error = none ∧
      (process_chunks chunks gen false).failed_chunks = failList gen chunks ∧
      ∀ i, i < chunks.length →
        (process_chunks chunks gen false).results.getD i [] =
          (match gen (chunks.getD i default) with
           | Except.ok resp => resp
           | Except.error _ => [])) ∧
    (∀ k e, k < chunks.length →
      (∀ j, j < k → isOkE (gen (chunks.getD j default)) = true) →
      gen (chunks.getD k default) = Except.error e →
      (process_chunks chunks gen true).error = some e ∧
        (process_chunks chunks gen true).failed_chunks = [k + 1] ∧
        (process_chunks chunks gen true).progress =
          (List.range (k + 2)).map (fun i => (i, chunks.length)) ∧
        ∀ i, k ≤ i → i < chunks.length →
          (process_chunks chunks gen true).results.getD i [] = []) := by
  constructor
  · rw [process_chunks, procLoop_continue]
    refine ⟨rfl, by simp, ?_⟩
    intro i hi
    have hcan0 : ∀ j, j < chunks.length →
        (chunks.getD j default).index = 0 + j + 1 := by
      intro j hj
      rw [hcan j hj]
      omega
    rw [applyResults_getD_in gen chunks 0 _ hcan0 (by simp) i (by omega)
      (by omega)]
    simp only [Nat.sub_zero]
    cases gen (chunks.getD i default) with
    | ok resp => rfl
    | error e => exact getD_replicate chunks.length i
  · intro k e hk hok hfail
    rw [process_chunks, procLoop_abort gen chunks.length chunks k hk e hok hfail]
    refine ⟨rfl, ?_, ?_, ?_⟩
    · show [] ++ [(chunks.getD k default).index] = [k + 1]
      rw [hcan k hk]
      rfl
    · have hshape := progressList_take_shape chunks.length chunks hcan (k + 1)
        (by omega)
      simp only [hshape]
      rw [range_pairs_shape chunks.length (k + 1)]
      simp
    · intro i hik hin
      have hcant : ∀ j, j < (chunks.take k).length →
          ((chunks.take k).getD j default).index = 0 + j + 1 := by
        intro j hj
        have hjk : j < k := by
          simp only [List.length_take] at hj
          omega
        have hjn : j < chunks.length := by omega
        rw [List.getD_eq_getElem _ default hj, List.getElem_take,
          ← List.getD_eq_getElem _ default hjn, hcan j hjn]
        omega
      have := applyResults_getD_out gen (chunks.take k) 0
        (List.replicate chunks.length []) hcant i
        (by simp only [List.length_take]; omega)
      simp only [this]
      exact getD_replicate chunks.length i

/-- C8: the progress notifications are exactly the counters 0 through the
number of processed chunks, each paired with the chunk total: a 0/total
notification precedes the first chunk, one notification follows each
finished chunk (which is also the one preceding the next chunk's start),
the completed counts are monotonically non-decreasing, and without
abort-on-failure every chunk is counted. -/
theorem claim_C8_processor_progress_monotone (chunks : List Chunk)
    (gen : Chunk → Except (List Char) (List Char)) (abort : Bool)
    (hcan : canonicalIdx chunks) :
    ∃ m, m ≤ chunks.length ∧
      (process_chunks chunks gen abort).progress =
        (List.range (m + 1)).map (fun i => (i, chunks.length)) ∧
      (abort = false → m = chunks.length) ∧
      (process_chunks chunks gen abort).progress.head? =
        some (0, chunks.length) ∧
      List.Chain' (fun a b : Nat × Nat => a.1 ≤ b.1)
        (process_chunks chunks gen abort).progress := by
  obtain ⟨m, hm, hp, hab⟩ := procLoop_progress gen chunks.length abort chunks
    (List.replicate chunks.length []) [] [(0, chunks.length)]
  have hshape : (process_chunks chunks gen abort).progress =
      (List.range (m + 1)).map (fun i => (i, chunks.length)) := by
    rw [process_chunks, hp, progressList_take_shape chunks.length chunks hcan m hm,
      range_pairs_shape]
    simp
  refine ⟨m, hm, hshape, hab, ?_, ?_⟩
  · rw [hshape, range_pairs_shape]
    rfl
  · rw [hshape]
    exact chain_pairs chunks.length (m + 1)

/-- Two-chunk fixture with canonical indexing for the processor witnesses. -/
def chunksW : List Chunk :=
  [⟨1, 2, "a ".toList, 0, 2, 0, 1⟩, ⟨2, 2, "b".toList, 2, 3, 1, 2⟩]

/-- Transform oracle for the processor witnesses: the first chunk succeeds,
the second fails. -/
def genW : Chunk → Except (List Char) (List Char) := fun c =>
  if c.index = 1 then Except.ok "[X] ".toList else Except.error "fallo".toList

theorem chunksW_canonical : canonicalIdx chunksW := by
  show ∀ i, i < chunksW.length → (chunksW.getD i default).index = i + 1
  decide

theorem claim_C7_processor_failure_policy_witness :
    (canonicalIdx chunksW ∧ 1 < chunksW.length ∧
      (∀ j, j < 1 → isOkE (genW (chunksW.getD j default)) = true) ∧
      genW (chunksW.getD 1 default) = Except.error "fallo".toList) ∧
    ((process_chunks chunksW genW true).error = some "fallo".toList ∧
      (process_chunks chunksW genW true).failed_chunks = [1 + 1] ∧
      (process_chunks chunksW genW true).progress =
        (List.range (1 + 2)).map (fun i => (i, chunksW.length)) ∧
      ∀ i, 1 ≤ i → i < chunksW.length →
        (process_chunks chunksW genW true).results.getD i [] = []) :=
  ⟨⟨chunksW_canonical, by decide, by decide, rfl⟩,
    (claim_C7_processor_failure_policy chunksW genW chunksW_canonical).2
      1 "fallo".toList (by decide) (by decide) rfl⟩

theorem claim_C8_processor_progress_monotone_witness :
    canonicalIdx chunksW ∧
    ∃ m, m ≤ chunksW.length ∧
      (process_chunks chunksW genW true).progress =
        (List.range (m + 1)).map (fun i => (i, chunksW.length)) ∧
      (true = false → m = chunksW.length) ∧
      (process_chunks chunksW genW true).progress.head? =
        some (0, chunksW.length) ∧
      List.Chain' (fun a b : Nat × Nat => a.1 ≤ b.1)
        (process_chunks chunksW genW true).progress :=
  ⟨chunksW_canonical,
    claim_C8_processor_progress_monotone chunksW genW true chunksW_canonical⟩


/-- Decimal digits of a number, most significant first, modelling the Python
f-string rendering of the mask index. Structural fuel: the digit count never
exceeds the number itself plus one. -/
def natCharsAux : Nat → Nat → List Char → List Char
  | 0, _, acc => acc
  | fuel + 1, n, acc =>
    if n < 10 then Nat.digitChar n :: acc
    else natCharsAux fuel (n / 10) (Nat.digitChar (n % 10) :: acc)

def natChars (n : Nat) : List Char := natCharsAux (n + 1) n []

theorem digitChar_isDigit (m : Nat) (h : m < 10) :
    (Nat.digitChar m).isDigit = true := by
  interval_cases m <;> decide

theorem natCharsAux_digits :
    ∀ (fuel n : Nat) (acc : List Char), n < fuel →
      ∃ pre, natCharsAux fuel n acc = pre ++ acc ∧ pre ≠ [] ∧
        ∀ c ∈ pre, c.isDigit = true := by
  intro fuel
  induction fuel with
  | zero => intro n acc h; omega
  | succ f ih =>
    intro n acc h
    rw [natCharsAux]
    by_cases h10 : n < 10
    · rw [if_pos h10]
      refine ⟨[Nat.digitChar n], rfl, by simp, ?_⟩
      intro c hc
      simp at hc
      rw [hc]
      exact digitChar_isDigit n h10
    · rw [if_neg h10]
      have hdiv : n / 10 < f := by omega
      obtain ⟨pre, heq, hne, hdig⟩ := ih (n / 10) (Nat.digitChar (n % 10) :: acc) hdiv
      refine ⟨pre ++ [Nat.digitChar (n % 10)], by rw [heq]; simp, by simp, ?_⟩
      intro c hc
      rw [List.mem_append] at hc
      rcases hc with hc | hc
      · exact hdig c hc
      · simp at hc
        rw [hc]
        exact digitChar_isDigit _ (Nat.mod_lt _ (by norm_num))

theorem natChars_last (n : Nat) :
    ∃ pre, natChars n = pre ++ [Nat.digitChar (n % 10)] ∧
      ∀ c ∈ pre, c.isDigit = true := by
  rw [natChars, natCharsAux]
  by_cases h10 : n < 10
  · rw [if_pos h10]
    refine ⟨[], ?_, by simp⟩
    rw [Nat.mod_eq_of_lt h10]
    rfl
  · rw [if_neg h10]
    have hdiv : n / 10 < n := by omega
    obtain ⟨pre, heq, _, hdig⟩ :=
      natCharsAux_digits n (n / 10) [Nat.digitChar (n % 10)] hdiv
    exact ⟨pre, heq, hdig⟩

theorem natChars_digits (n : Nat) : ∀ c ∈ natChars n, c.isDigit = true := by
  obtain ⟨pre, heq, hdig⟩ := natChars_last n
  intro c hc
  rw [heq, List.mem_append] at hc
  rcases hc with hc | hc
  · exact hdig c hc
  · simp at hc
    rw [hc]
    exact digitChar_isDigit _ (Nat.mod_lt _ (by norm_num))

theorem leadsWith_iff : ∀ (pat s : List Char),
    leadsWith pat s = true ↔ ∃ r, s = pat ++ r := by
  intro pat
  induction pat with
  | nil =>
    intro s
    simp [leadsWith]
  | cons p ps ih =>
    intro s
    cases s with
    | nil =>
      simp only [leadsWith]
      constructor
      · intro h; exact absurd h (by simp)
      · intro ⟨r, hr⟩; simp at hr
    | cons c cs =>
      rw [leadsWith]
      simp only [Bool.and_eq_true, beq_iff_eq]
      rw [ih cs]
      constructor
      · intro ⟨hpc, r, hr⟩
        exact ⟨r, by rw [hpc, hr]; rfl⟩
      · intro ⟨r, hr⟩
        simp only [List.cons_append, List.cons.injEq] at hr
        exact ⟨hr.1.symm, r, hr.2⟩

theorem hasSub_iff : ∀ (s pat : List Char),
    hasSub pat s = true ↔ ∃ l r, s = l ++ pat ++ r := by
  intro s
  induction s with
  | nil =>
    intro pat
    rw [hasSub, leadsWith_iff]
    constructor
    · intro ⟨r, hr⟩
      exact ⟨[], r, by simpa using hr⟩
    · intro ⟨l, r, hr⟩
      refine ⟨r, ?_⟩
      cases l with
      | cons a as => simp at hr
      | nil => simpa using hr
  | cons c cs ih =>
    intro pat
    rw [hasSub]
    simp only [Bool.or_eq_true]
    rw [leadsWith_iff, ih pat]
    constructor
    · intro h
      rcases h with ⟨r, hr⟩ | ⟨l, r, hr⟩
      · exact ⟨[], r, by simpa using hr⟩
      · exact ⟨c :: l, r, by rw [hr]; rfl⟩
    · intro ⟨l, r, hr⟩
      cases l with
      | nil =>
        left
        exact ⟨r, by simpa using hr⟩
      | cons a as =>
        right
        simp only [List.cons_append, List.cons.injEq] at hr
        exact ⟨as, r, hr.2⟩

/-- Labels used by the deterministic pre-masking patterns in the source. -/
def MASK_LABELS : List (List Char) :=
  ["EMAIL".toList, "DOCUMENTO".toList, "TELEFONO".toList,
    "CUENTA_BANCARIA".toList, "DOMICILIO".toList]

/-- Placeholder produced by pre_mask_text for a given label and running
mask index. -/
def pre_mask_placeholder (label : List Char) (idx : Nat) : List Char :=
  '[' :: (label ++ ('_' :: (natChars idx ++ [']'])))

theorem hasSub_token_mask_false (token : List Char)
    (htok : token ∈ PLACEHOLDER_TOKENS) (label : List Char)
    (hlabel : label ∈ MASK_LABELS) (idx : Nat) :
    hasSub token (pre_mask_placeholder label idx) = false := by
  by_contra hcon
  rw [Bool.not_eq_false, hasSub_iff] at hcon
  obtain ⟨l, r, heq⟩ := hcon
  have hlabelcount : label.count ']' = 0 := by
    fin_cases hlabel <;> decide
  have hdigcount : (natChars idx).count ']' = 0 := by
    rw [List.count_eq_zero]
    intro hmem
    have := natChars_digits idx _ hmem
    exact absurd this (by decide)
  have hphcount : (pre_mask_placeholder label idx).count ']' = 1 := by
    rw [pre_mask_placeholder]
    simp [List.count_cons, List.count_append, hlabelcount, hdigcount]
  have htokcount : token.count ']' = 1 := by
    fin_cases htok <;> decide
  have hrcount : r.count ']' = 0 := by
    have h2 := hphcount
    rw [heq] at h2
    simp only [List.count_append, htokcount] at h2
    omega
  obtain ⟨pre, hncl, hpredig⟩ := natChars_last idx
  have hphrev : (pre_mask_placeholder label idx).reverse =
      ']' :: (Nat.digitChar (idx % 10) ::
        (pre.reverse ++ ('_' :: (label.reverse ++ ['[' ])))) := by
    rw [pre_mask_placeholder, hncl]
    simp
  have hrev : (pre_mask_placeholder label idx).reverse =
      r.reverse ++ (token.reverse ++ l.reverse) := by
    rw [heq]
    simp
  have hrnil : r = [] := by
    by_contra hrne
    obtain ⟨h0, t0, hr0⟩ :=
      List.exists_cons_of_ne_nil (show r.reverse ≠ [] by simpa using hrne)
    have h00 := congrArg (fun t => t[0]?) hrev
    rw [hphrev] at h00
    simp only [hr0, List.cons_append, List.getElem?_cons_zero] at h00
    have hh0 : h0 = ']' := by simpa using h00.symm
    have hmem : h0 ∈ r := by
      have : h0 ∈ r.reverse := by rw [hr0]; simp
      simpa using this
    rw [hh0] at hmem
    rw [List.count_eq_zero] at hrcount
    exact hrcount hmem
  subst hrnil
  rw [List.reverse_nil, List.nil_append] at hrev
  have htl : 2 ≤ token.reverse.length := by
    fin_cases htok <;> decide
  have ht1 : token.reverse[1]?.map Char.isDigit = some false := by
    fin_cases htok <;> decide
  have h11 := congrArg (fun t => t[1]?) hrev
  rw [hphrev] at h11
  simp only [List.getElem?_cons_succ, List.getElem?_cons_zero] at h11
  rw [List.getElem?_append_left (by omega)] at h11
  rw [← h11] at ht1
  simp at ht1
  have := digitChar_isDigit (idx % 10) (Nat.mod_lt _ (by norm_num))
  rw [this] at ht1
  exact absurd ht1 (by simp)

/-- C10: every placeholder the deterministic pre-masking path produces,
[LABEL_index], lies outside the recognized redaction placeholder set, so a
replace region whose transformed segment is such a placeholder over
non-whitespace original content is flagged as suspicious by the divergence
validator. -/
theorem claim_C10_premask_placeholders_flagged (label : List Char)
    (hlabel : label ∈ MASK_LABELS) (idx : Nat) :
    contains_placeholder (pre_mask_placeholder label idx) = false ∧
    ∀ (original anonymized : List Char) (op : Opcode),
      op.tag = Tag.replace →
      sliceOf anonymized op.j1 op.j2 = pre_mask_placeholder label idx →
      isBlank (sliceOf original op.i1 op.i2) = false →
      flagRecord original anonymized op ≠ none ∧
      detect_suspicious_edits original anonymized [op] 10 ≠ [] := by
  have hcp : contains_placeholder (pre_mask_placeholder label idx) = false := by
    rw [contains_placeholder, List.any_eq_false]
    intro token htok
    rw [hasSub_token_mask_false token htok label hlabel idx]
    simp
  refine ⟨hcp, ?_⟩
  intro original anonymized op htag hseg hblank
  have hflag : flagRecord original anonymized op ≠ none := by
    rw [flagRecord]
    rw [if_neg (by rw [htag]; simp)]
    rw [if_neg (by rw [hblank]; simp)]
    rw [if_neg (by rw [hseg, hcp]; simp)]
    rw [if_neg (by rw [htag]; simp)]
    simp
  refine ⟨hflag, ?_⟩
  rw [detect_suspicious_edits, detectLoop]
  cases hf : flagRecord original anonymized op with
  | none => exact absurd hf hflag
  | some rec => simp [detectLoop]

theorem claim_C10_premask_placeholders_flagged_witness :
    ("EMAIL".toList ∈ MASK_LABELS ∧
      ((⟨Tag.replace, 0, 1, 0, 9⟩ : Opcode).tag = Tag.replace ∧
        sliceOf (pre_mask_placeholder "EMAIL".toList 7) 0 9 =
          pre_mask_placeholder "EMAIL".toList 7 ∧
        isBlank (sliceOf "x".toList 0 1) = false)) ∧
    (contains_placeholder (pre_mask_placeholder "EMAIL".toList 7) = false ∧
      (flagRecord "x".toList (pre_mask_placeholder "EMAIL".toList 7)
          ⟨Tag.replace, 0, 1, 0, 9⟩ ≠ none ∧
        detect_suspicious_edits "x".toList
          (pre_mask_placeholder "EMAIL".toList 7)
          [⟨Tag.replace, 0, 1, 0, 9⟩] 10 ≠ [])) :=
  ⟨⟨by decide, rfl, by decide, by decide⟩,
    (claim_C10_premask_placeholders_flagged "EMAIL".toList (by decide) 7).1,
    (claim_C10_premask_placeholders_flagged "EMAIL".toList (by decide) 7).2
      "x".toList (pre_mask_placeholder "EMAIL".toList 7)
      ⟨Tag.replace, 0, 1, 0, 9⟩ rfl (by decide) (by decide)⟩


/-- Word-character class for the word-boundary semantics of the replacement
regexes, modelling the Unicode word class on the Basic Latin and Latin-1 /
Latin Extended-A letters these documents use. -/
def wordChar (c : Char) : Bool :=
  c.isAlphanum || c == '_' ||
    (0xC0 ≤ c.toNat && c.toNat ≤ 0x17F && c.toNat ≠ 0xD7 && c.toNat ≠ 0xF7)

/-- Case-insensitive character comparison modelling the IGNORECASE flag. -/
def lowerEq (a b : Char) : Bool := a.toLower == b.toLower

/-- Case-insensitive prefix match of an escaped literal pattern. -/
def matchesCI : List Char → List Char → Bool
  | [], _ => true
  | _ :: _, [] => false
  | p :: ps, c :: cs => lowerEq p c && matchesCI ps cs

def isWordOpt : Option Char → Bool
  | none => false
  | some c => wordChar c

/-- Match test at the current scan position for a pattern wrapped in word
boundaries: the literal matches case-insensitively and a word boundary
holds both before the first matched character and after the last one. -/
def boundaryMatch (pat : List Char) (prev : Option Char) (s : List Char) : Bool :=
  !pat.isEmpty && matchesCI pat s &&
    (isWordOpt prev != isWordOpt s.head?) &&
    (isWordOpt (s.take pat.length).getLast? != isWordOpt (s.drop pat.length).head?)

/-- Left-to-right scan of re.sub for one whole-word case-insensitive
pattern: matches are replaced and scanning resumes after the match, which
is never rescanned. Structural fuel equal to the input length; every step
consumes at least one character. -/
def subPassAux (pat repl : List Char) : Nat → Option Char → List Char → List Char
  | 0, _, s => s
  | fuel + 1, prev, s =>
    match s with
    | [] => []
    | c :: cs =>
      if boundaryMatch pat prev (c :: cs) then
        repl ++ subPassAux pat repl fuel ((c :: cs).take pat.length).getLast?
          ((c :: cs).drop pat.length)
      else c :: subPassAux pat repl fuel (some c) cs

/-- One re.sub pass over the whole text. -/
def re_sub_word (pat repl text : List Char) : List Char :=
  subPassAux pat repl text.length none text

/-- The entity-extraction JSON fields used by anonymize_text. -/
structure EntitiesJson where
  partes_proceso : List (List Char × List (List Char))
  variantes : List (List Char × List (List Char))
  datos_adicionales : List (List Char × List (List Char))

/-- dict.get with a default. -/
def lookupOr (m : List (List Char × List (List Char))) (k : List Char)
    (d : List (List Char)) : List (List Char) :=
  match m.find? (fun kv => kv.1 == k) with
  | some kv => kv.2
  | none => d

/-- Insertion into the replacement map only when the key is absent (the
source never overwrites an existing variant). -/
def mapeoInsert (m : List (List Char × List Char)) (k v : List Char) :
    List (List Char × List Char) :=
  if m.any (fun kv => kv.1 == k) then m else m ++ [(k, v)]

def toUpperList (s : List Char) : List Char := s.map Char.toUpper

def isMainParty (tipo : List Char) : Bool :=
  tipo == "actor".toList || tipo == "demandado".toList

def contadorGet (cont : List (List Char × Nat)) (k : List Char) : Nat :=
  match cont.find? (fun kv => kv.1 == k) with
  | some kv => kv.2
  | none => 0

def contadorSet (cont : List (List Char × Nat)) (k : List Char) (v : Nat) :
    List (List Char × Nat) :=
  cont.map (fun kv => if kv.1 == k then (kv.1, v) else kv)

/-- Map one person plus every recorded variant (the source defaults to the
person itself when no variants are recorded) to the category tag. -/
def processPersona (variantes : List (List Char × List (List Char)))
    (tag : List Char) (mapeo : List (List Char × List Char))
    (persona : List Char) : List (List Char × List Char) :=
  (lookupOr variantes persona [persona]).foldl
    (fun m v => mapeoInsert m v tag) mapeo

/-- Process one partes_proceso category: actor/demandado get a plain tag,
the remaining categories get a per-category counter suffix. -/
def processCategoria (variantes : List (List Char × List (List Char)))
    (st : List (List Char × Nat) × List (List Char × List Char))
    (cat : List Char × List (List Char)) :
    List (List Char × Nat) × List (List Char × List Char) :=
  cat.2.foldl
    (fun st2 persona =>
      if isMainParty cat.1 then
        (st2.1, processPersona variantes
          ('[' :: (toUpperList cat.1 ++ [']'])) st2.2 persona)
      else
        let n := contadorGet st2.1 cat.1 + 1
        (contadorSet st2.1 cat.1 n, processPersona variantes
          ('[' :: (toUpperList cat.1 ++ ('_' :: (natChars n ++ [']']))))
          st2.2 persona))
    st

def initialContador : List (List Char × Nat) :=
  [("testigos".toList, 0), ("peritos".toList, 0), ("victimas".toList, 0),
    ("otros_intervinientes".toList, 0)]

def placeholders_adicionales : List (List Char × List Char) :=
  [("domicilios".toList, "[DOMICILIO]".toList),
    ("documentos".toList, "[DOCUMENTO]".toList),
    ("telefonos".toList, "[TELEFONO]".toList),
    ("emails".toList, "[EMAIL]".toList),
    ("cuentas_bancarias".toList, "[CUENTA BANCARIA]".toList)]

def lookupPlaceholder (k : List Char) : List Char :=
  match placeholders_adicionales.find? (fun kv => kv.1 == k) with
  | some kv => kv.2
  | none => "[REDACTADO]".toList

/-- Build the replacement map of anonymize_text: partes_proceso with their
variants first, then the additional data categories. -/
def buildMapeo (e : EntitiesJson) : List (List Char × List Char) :=
  let st := e.partes_proceso.foldl (processCategoria e.variantes)
    (initialContador, [])
  e.datos_adicionales.foldl
    (fun m cat =>
      cat.2.foldl (fun m2 item => mapeoInsert m2 item (lookupPlaceholder cat.1)) m)
    st.2

/-- Stable insertion for the length-descending candidate order: a key moves
before the first strictly shorter key, keeping insertion order among keys of
equal length, as Python's stable sorted with reverse=True does. -/
def insertByLen (x : List Char × List Char) :
    List (List Char × List Char) → List (List Char × List Char)
  | [] => [x]
  | y :: ys => if y.1.length < x.1.length then x :: y :: ys else y :: insertByLen x ys

def sortByLenDesc (m : List (List Char × List Char)) :
    List (List Char × List Char) :=
  m.foldr insertByLen []

/-- Count of non-overlapping pattern occurrences, leftmost first. -/
def countSubAux (pat : List Char) : Nat → List Char → Nat
  | 0, _ => 0
  | fuel + 1, s =>
    match s with
    | [] => 0
    | c :: cs =>
      if leadsWith pat (c :: cs) && !pat.isEmpty then
        1 + countSubAux pat fuel ((c :: cs).drop pat.length)
      else countSubAux pat fuel cs

def countSub (pat s : List Char) : Nat := countSubAux pat s.length s

/-- anonymize_text from the source: build the map, then substitute each
candidate with whole-word case-insensitive matching, longest key first. -/
def anonymize_text (text : List Char) (entities_json : EntitiesJson) :
    List Char × List (List Char × List Char) :=
  let mapeo := buildMapeo entities_json
  ((sortByLenDesc mapeo).foldl (fun t kv => re_sub_word kv.1 kv.2 t) text, mapeo)

theorem insertByLen_perm (x : List Char × List Char) :
    ∀ l, (insertByLen x l).Perm (x :: l) := by
  intro l
  induction l with
  | nil => exact List.Perm.refl _
  | cons y ys ih =>
    rw [insertByLen]
    by_cases h : y.1.length < x.1.length
    · rw [if_pos h]
    · rw [if_neg h]
      exact (ih.cons y).trans (List.Perm.swap x y ys)

theorem chain_insertByLen (x : List Char × List Char) :
    ∀ l, List.Chain' (fun a b => b.1.length ≤ a.1.length) l →
      List.Chain' (fun a b => b.1.length ≤ a.1.length) (insertByLen x l) := by
  intro l
  induction l with
  | nil => intro _; simp [insertByLen]
  | cons y ys ih =>
    intro hch
    rw [insertByLen]
    by_cases h : y.1.length < x.1.length
    · rw [if_pos h]
      exact List.Chain'.cons (by omega) hch
    · rw [if_neg h]
      rw [List.chain'_cons']
      refine ⟨?_, ih hch.tail⟩
      intro z hz
      cases ys with
      | nil =>
        simp [insertByLen] at hz
        rw [← hz]
        omega
      | cons w ws =>
        rw [insertByLen] at hz
        by_cases h2 : w.1.length < x.1.length
        · rw [if_pos h2] at hz
          simp at hz
          rw [← hz]
          omega
        · rw [if_neg h2] at hz
          simp at hz
          rw [← hz]
          exact (List.chain'_cons.mp hch).1

theorem sortByLenDesc_sorted (m : List (List Char × List Char)) :
    List.Chain' (fun a b => b.1.length ≤ a.1.length) (sortByLenDesc m) := by
  induction m with
  | nil => simp [sortByLenDesc]
  | cons a as ih => exact chain_insertByLen a _ ih

theorem sortByLenDesc_perm (m : List (List Char × List Char)) :
    (sortByLenDesc m).Perm m := by
  induction m with
  | nil => exact List.Perm.refl _
  | cons a as ih => exact (insertByLen_perm a _).trans (ih.cons a)

/-- Entity map of the longest-first scenario: canonical name with its
variants, the canonical form included among the variants. -/
def entitiesW : EntitiesJson :=
  ⟨[("actor".toList, ["Juan Carlos Pérez".toList])],
    [("Juan Carlos Pérez".toList,
      ["Juan Carlos Pérez".toList, "Pérez".toList])], []⟩

/-- C9: replacement substitutes the candidate keys with whole-word
case-insensitive matching, processing them longest-string-first (the
processing order is length-sorted descending and a permutation of the map);
in the scenario with canonical "Juan Carlos Pérez" and variant "Pérez" both
in the map, the text "Juan Carlos Pérez vio a Pérez" gets exactly two
placeholder occurrences and no partially-substituted hybrid. -/
theorem claim_C9_entity_replacement_longest_first :
    (∀ (text : List Char) (e : EntitiesJson),
      (anonymize_text text e).1 =
        (sortByLenDesc (buildMapeo e)).foldl
          (fun t kv => re_sub_word kv.1 kv.2 t) text) ∧
    (∀ m : List (List Char × List Char),
      List.Chain' (fun a b => b.1.length ≤ a.1.length) (sortByLenDesc m) ∧
        (sortByLenDesc m).Perm m) ∧
    (anonymize_text "Juan Carlos Pérez vio a Pérez".toList entitiesW).1 =
      "[ACTOR] vio a [ACTOR]".toList ∧
    countSub "[ACTOR]".toList
      (anonymize_text "Juan Carlos Pérez vio a Pérez".toList entitiesW).1 = 2 := by
  refine ⟨fun text e => rfl,
    fun m => ⟨sortByLenDesc_sorted m, sortByLenDesc_perm m⟩, ?_, ?_⟩
  · decide
  · decide

end Anonimizador
